import Mathlib

/-!
Verification of the ctf-arena orchestration core against its specification.

The Rust sources are embedded shallowly: pure functions become Lean
functions, SQL upserts become pure state transformers on row maps keyed the
way the table is keyed, and the NATS key-value spaces become functions from
keys to optional values.  External collaborators (serde_json, the sandbox,
the database engine's transport) are taken as parameters where the code
treats them as black boxes.
-/

namespace CtfArena

/-! ## Generic insertion sort used to model the various sort operations -/

def insertLe {α : Type} (le : α → α → Bool) (x : α) : List α → List α
  | [] => [x]
  | y :: ys => if le x y then x :: y :: ys else y :: insertLe le x ys

def sortLe {α : Type} (le : α → α → Bool) : List α → List α
  | [] => []
  | x :: xs => insertLe le x (sortLe le xs)

theorem insertLe_perm {α : Type} (le : α → α → Bool) (x : α) (l : List α) :
    List.Perm (insertLe le x l) (x :: l) := by
  induction l with
  | nil => simp [insertLe]
  | cons y ys ih =>
    simp only [insertLe]
    by_cases h : le x y = true
    · rw [if_pos h]
    · rw [if_neg h]
      exact (ih.cons y).trans (List.Perm.swap x y ys)

theorem sortLe_perm {α : Type} (le : α → α → Bool) (l : List α) :
    List.Perm (sortLe le l) l := by
  induction l with
  | nil => simp [sortLe]
  | cons x xs ih =>
    exact (insertLe_perm le x (sortLe le xs)).trans (ih.cons x)

theorem insertLe_sorted {α : Type} (le : α → α → Bool)
    (htot : ∀ a b, le a b = true ∨ le b a = true)
    (htrans : ∀ a b c, le a b = true → le b c = true → le a c = true)
    (x : α) (l : List α)
    (hl : List.Sorted (fun a b => le a b = true) l) :
    List.Sorted (fun a b => le a b = true) (insertLe le x l) := by
  induction l with
  | nil => simp [insertLe]
  | cons y ys ih =>
    rcases List.sorted_cons.mp hl with ⟨hy, hys⟩
    simp only [insertLe]
    by_cases h : le x y = true
    · rw [if_pos h]
      refine List.sorted_cons.mpr ⟨?_, hl⟩
      intro b hb
      rcases List.mem_cons.mp hb with hb | hb
      · exact hb ▸ h
      · exact htrans x y b h (hy b hb)
    · rw [if_neg h]
      have hyx : le y x = true := (htot x y).resolve_left h
      refine List.sorted_cons.mpr ⟨?_, ih hys⟩
      intro b hb
      have hb' : b ∈ x :: ys := (insertLe_perm le x ys).mem_iff.mp hb
      rcases List.mem_cons.mp hb' with hb' | hb'
      · exact hb' ▸ hyx
      · exact hy b hb'

theorem sortLe_sorted {α : Type} (le : α → α → Bool)
    (htot : ∀ a b, le a b = true ∨ le b a = true)
    (htrans : ∀ a b c, le a b = true → le b c = true → le a c = true)
    (l : List α) :
    List.Sorted (fun a b => le a b = true) (sortLe le l) := by
  induction l with
  | nil => simp [sortLe]
  | cons x xs ih => exact insertLe_sorted le htot htrans x (sortLe le xs) ih

/-! ## C2, C10: output verification (src/api/src/challenges.rs, verify_output) -/

inductive VerifyMode
  | Exact
  | Trimmed
  | Sorted
deriving DecidableEq, Repr

/-- Code points with the Unicode White_Space property, the set accepted by
Rust's `char::is_whitespace`, which `str::trim` strips from both ends. -/
def isRustWhitespace (c : Char) : Bool :=
  c == ' ' || c == '\t' || c == '\n' || c == '\r' ||
  c.toNat == 11 || c.toNat == 12 || c.toNat == 133 || c.toNat == 160 ||
  c.toNat == 5760 || (8192 ≤ c.toNat && c.toNat ≤ 8202) ||
  c.toNat == 8232 || c.toNat == 8233 || c.toNat == 8239 ||
  c.toNat == 8287 || c.toNat == 12288

/-- Model of Rust's `str::trim`. -/
def rustTrim (s : String) : String :=
  String.mk (((s.data.dropWhile isRustWhitespace).reverse.dropWhile
    isRustWhitespace).reverse)

/-- A line terminated by a newline also drops a carriage return that
immediately precedes the newline, as Rust's `str::lines` does. -/
def stripTrailingCR (l : List Char) : List Char :=
  if l.getLast? = some '\r' then l.dropLast else l

def linesCore : List Char → List Char → List (List Char)
  | [], acc => if acc.isEmpty then [] else [acc.reverse]
  | c :: rest, acc =>
    if c = '\n' then stripTrailingCR acc.reverse :: linesCore rest []
    else linesCore rest (c :: acc)

/-- Model of Rust's `str::lines`: split at newline terminators, the final
terminator optional, stripping a carriage return before each newline. -/
def rustLines (s : String) : List String := (linesCore s.data []).map String.mk

/-- The per-line trimmed sequence the Trimmed and Sorted modes compare. -/
def trimmedLines (s : String) : List String := (rustLines s).map rustTrim

/-- Lexicographic order on character lists by code point.  Rust's `Ord` on
`str` is byte-lexicographic on UTF-8, which agrees with the code-point
order modelled here because UTF-8 preserves code-point order. -/
def charListLe : List Char → List Char → Bool
  | [], _ => true
  | _ :: _, [] => false
  | a :: as, b :: bs => decide (a < b) || (a == b && charListLe as bs)

theorem charListLe_total : ∀ xs ys, charListLe xs ys = true ∨ charListLe ys xs = true := by
  intro xs
  induction xs with
  | nil => intro ys; left; rfl
  | cons a as ih =>
    intro ys
    cases ys with
    | nil => right; rfl
    | cons b bs =>
      simp only [charListLe, Bool.or_eq_true, Bool.and_eq_true, decide_eq_true_eq,
        beq_iff_eq]
      rcases lt_trichotomy a b with h | h | h
      · exact Or.inl (Or.inl h)
      · rcases ih bs with h2 | h2
        · exact Or.inl (Or.inr ⟨h, h2⟩)
        · exact Or.inr (Or.inr ⟨h.symm, h2⟩)
      · exact Or.inr (Or.inl h)

theorem charListLe_trans :
    ∀ xs ys zs, charListLe xs ys = true → charListLe ys zs = true →
      charListLe xs zs = true := by
  intro xs
  induction xs with
  | nil => intro ys zs _ _; rfl
  | cons a as ih =>
    intro ys zs hxy hyz
    cases ys with
    | nil => simp [charListLe] at hxy
    | cons b bs =>
      cases zs with
      | nil => simp [charListLe] at hyz
      | cons c cs =>
        simp only [charListLe, Bool.or_eq_true, Bool.and_eq_true,
          decide_eq_true_eq, beq_iff_eq] at hxy hyz ⊢
        rcases hxy with h1 | ⟨h1, h1r⟩
        · rcases hyz with h2 | ⟨h2, _⟩
          · exact Or.inl (lt_trans h1 h2)
          · exact Or.inl (h2 ▸ h1)
        · rcases hyz with h2 | ⟨h2, h2r⟩
          · exact Or.inl (h1 ▸ h2)
          · exact Or.inr ⟨h1.trans h2, ih bs cs h1r h2r⟩

theorem charListLe_antisymm :
    ∀ xs ys, charListLe xs ys = true → charListLe ys xs = true → xs = ys := by
  intro xs
  induction xs with
  | nil =>
    intro ys _ hyx
    cases ys with
    | nil => rfl
    | cons b bs => simp [charListLe] at hyx
  | cons a as ih =>
    intro ys hxy hyx
    cases ys with
    | nil => simp [charListLe] at hxy
    | cons b bs =>
      simp only [charListLe, Bool.or_eq_true, Bool.and_eq_true,
        decide_eq_true_eq, beq_iff_eq] at hxy hyx
      rcases hxy with h1 | ⟨h1, h1r⟩
      · rcases hyx with h2 | ⟨h2, _⟩
        · exact absurd (lt_trans h1 h2) (lt_irrefl a)
        · exact absurd (h2 ▸ h1) (lt_irrefl a)
      · rcases hyx with h2 | ⟨h2, h2r⟩
        · exact absurd (h1 ▸ h2) (lt_irrefl a)
        · rw [h1, ih bs h1r h2r]

/-- Byte-lexicographic order on strings, the order `sort()` uses on `&str`. -/
def strLeB (a b : String) : Bool := charListLe a.data b.data

/-- Model of `verify_output` from src/api/src/challenges.rs. -/
def verify_output (actual expected : String) (mode : VerifyMode) : Bool :=
  match mode with
  | .Exact => actual == expected
  | .Trimmed => trimmedLines actual == trimmedLines expected
  | .Sorted =>
    sortLe strLeB (trimmedLines actual) == sortLe strLeB (trimmedLines expected)

example : rustLines "a\nb\n" = ["a", "b"] := by decide
example : rustLines "a\r\nb" = ["a", "b"] := by decide
example : rustLines "" = [] := by decide
example : rustLines "\n" = [""] := by decide
example : trimmedLines " a \n b\n" = ["a", "b"] := by decide
example : sortLe strLeB ["b", "a"] = ["a", "b"] := by decide
example : verify_output "b\na\n" "a\nb\n" VerifyMode.Sorted = true := by decide
example : verify_output " a \n b\n" "a\nb\n" VerifyMode.Trimmed = true := by decide
example : verify_output "b\na\n" "a\nb\n" VerifyMode.Exact = false := by decide

/-- C2: verify_output decides exact mode by byte equality, trimmed mode by
equality of the per-line-trimmed sequences, and sorted mode by equality of
those sequences after lexicographic sorting; the boundary pairs behave as
specified. -/
theorem c2_verify_output_modes :
    (∀ a e : String, verify_output a e .Exact = true ↔ a = e) ∧
    (∀ a e : String,
      verify_output a e .Trimmed = true ↔ trimmedLines a = trimmedLines e) ∧
    (∀ a e : String,
      verify_output a e .Sorted = true ↔
        sortLe strLeB (trimmedLines a) = sortLe strLeB (trimmedLines e)) ∧
    verify_output "b\na\n" "a\nb\n" .Sorted = true ∧
    verify_output " a \n b\n" "a\nb\n" .Trimmed = true ∧
    verify_output "b\na\n" "a\nb\n" .Exact = false ∧
    verify_output " a \n b\n" "a\nb\n" .Exact = false := by
  refine ⟨fun a e => ?_, fun a e => ?_, fun a e => ?_,
    by decide, by decide, by decide, by decide⟩
  · simp [verify_output]
  · simp [verify_output]
  · simp [verify_output]

/-! ## C1: leaderboard keep-best upsert (src/api/src/db.rs, update_leaderboard_entry) -/

/-- Columns of a leaderboard_entries row apart from its key. -/
structure LeaderboardEntry where
  instructions : Int
  run_id : Nat
  source_code : String
  is_verified : Bool
  created_at : Nat
deriving DecidableEq, Repr

/-- The unique key of leaderboard_entries: (user_id, challenge_id, language). -/
abbrev LBKey := Nat × String × String

/-- Model of the conditional upsert in `update_leaderboard_entry`: insert on
absent key; on conflict every column is replaced when the excluded row's
instructions are strictly smaller (created_at from NOW()), else kept. -/
def update_leaderboard_entry (board : LBKey → Option LeaderboardEntry)
    (k : LBKey) (instructions : Int) (run_id : Nat) (source_code : String)
    (is_verified : Bool) (now : Nat) : LBKey → Option LeaderboardEntry :=
  fun k' =>
    if k' = k then
      some (match board k with
        | none => ⟨instructions, run_id, source_code, is_verified, now⟩
        | some old =>
          if instructions < old.instructions then
            ⟨instructions, run_id, source_code, is_verified, now⟩
          else old)
    else board k'

/-- C1: the leaderboard upsert replaces the row's columns iff the new
instruction count is strictly smaller, leaves the row untouched otherwise,
inserts when the key is absent, and never touches other keys. -/
theorem c1_update_leaderboard_entry_keep_best
    (board : LBKey → Option LeaderboardEntry) (k : LBKey) (instructions : Int)
    (run_id : Nat) (source_code : String) (is_verified : Bool) (now : Nat) :
    (∀ old, board k = some old →
      (instructions < old.instructions →
        update_leaderboard_entry board k instructions run_id source_code
          is_verified now k =
          some ⟨instructions, run_id, source_code, is_verified, now⟩) ∧
      (old.instructions ≤ instructions →
        update_leaderboard_entry board k instructions run_id source_code
          is_verified now k = some old)) ∧
    (board k = none →
      update_leaderboard_entry board k instructions run_id source_code
        is_verified now k =
        some ⟨instructions, run_id, source_code, is_verified, now⟩) ∧
    (∀ k', k' ≠ k →
      update_leaderboard_entry board k instructions run_id source_code
        is_verified now k' = board k') := by
  refine ⟨fun old hold => ⟨fun hlt => ?_, fun hge => ?_⟩, fun hnone => ?_,
    fun k' hne => ?_⟩
  · simp [update_leaderboard_entry, hold, hlt]
  · simp [update_leaderboard_entry, hold, not_lt_of_ge hge]
  · simp [update_leaderboard_entry, hnone]
  · simp [update_leaderboard_entry, hne]

/-- Witness for C1 at a concrete board: a stored row at 2000 instructions is
replaced by 1500 and survives 3000, and an absent key is inserted. -/
theorem c1_update_leaderboard_entry_keep_best_witness :
    (update_leaderboard_entry
        (fun k => if k = (1, "fizz", "c") then some ⟨2000, 7, "old", false, 3⟩ else none)
        (1, "fizz", "c") 1500 8 "new" true 9) (1, "fizz", "c") =
      some ⟨1500, 8, "new", true, 9⟩ ∧
    (update_leaderboard_entry
        (fun k => if k = (1, "fizz", "c") then some ⟨1500, 8, "new", true, 9⟩ else none)
        (1, "fizz", "c") 3000 11 "worse" true 12) (1, "fizz", "c") =
      some ⟨1500, 8, "new", true, 9⟩ ∧
    (update_leaderboard_entry (fun _ => none)
        (2, "fizz", "c") 3000 11 "first" false 12) (2, "fizz", "c") =
      some ⟨3000, 11, "first", false, 12⟩ := by
  refine ⟨?_, ?_, ?_⟩
  · exact (c1_update_leaderboard_entry_keep_best _ _ _ _ _ _ _).1
      ⟨2000, 7, "old", false, 3⟩ (by decide) |>.1 (by decide)
  · exact (c1_update_leaderboard_entry_keep_best _ _ _ _ _ _ _).1
      ⟨1500, 8, "new", true, 9⟩ (by decide) |>.2 (by decide)
  · exact (c1_update_leaderboard_entry_keep_best _ _ _ _ _ _ _).2.1 (by decide)

/-- Model of the verify_mode selection in `process_challenge_submission`
(src/api/src/challenges.rs): any unrecognised stored string silently maps
to exact mode, with no error path. -/
def selectVerifyMode (s : String) : VerifyMode :=
  match s with
  | "exact" => VerifyMode.Exact
  | "trimmed" => VerifyMode.Trimmed
  | "sorted" => VerifyMode.Sorted
  | _ => VerifyMode.Exact

/-- C10: a verify_mode string that is none of exact, trimmed, sorted is not
rejected: the submission is verified under exact (byte-equal) mode. -/
theorem c10_unknown_verify_mode_defaults_to_exact (s : String)
    (h1 : s ≠ "exact") (h2 : s ≠ "trimmed") (h3 : s ≠ "sorted") :
    selectVerifyMode s = VerifyMode.Exact ∧
    ∀ actual expected : String,
      verify_output actual expected (selectVerifyMode s) = (actual == expected) := by
  have hm : selectVerifyMode s = VerifyMode.Exact := by
    unfold selectVerifyMode
    split
    · rfl
    · exact absurd rfl h2
    · exact absurd rfl h3
    · rfl
  exact ⟨hm, fun actual expected => by rw [hm]; rfl⟩

/-- Witness for C10 at the concrete stored string "banana". -/
theorem c10_unknown_verify_mode_defaults_to_exact_witness :
    selectVerifyMode "banana" = VerifyMode.Exact ∧
    ∀ actual expected : String,
      verify_output actual expected (selectVerifyMode "banana") =
        (actual == expected) :=
  c10_unknown_verify_mode_defaults_to_exact "banana" (by decide) (by decide)
    (by decide)

/-! ## C5: the test-case loop of process_challenge_submission -/

structure TestCase where
  stdin : String
  expected_stdout : String
deriving DecidableEq, Repr

/-- The fields of an ExecutionResult the submission loop reads. -/
structure ExecLite where
  stdout : String
  instructions : Nat
  exit_code : Int
deriving DecidableEq, Repr

/-- What the orchestrator observes for one test case: the execution result
when `wait_for_execution` succeeds, and the run row id when
`get_run_by_job_id` finds the run the worker persisted. -/
structure TestOutcome where
  exec : Option ExecLite
  run : Option Nat
deriving DecidableEq, Repr

/-- The mutable state of the loop over test cases. -/
structure SubmissionState where
  all_passed : Bool
  total_instructions : Int
  max_instructions : Int
  final_run_id : Option Nat
deriving DecidableEq, Repr

def initSubmissionState : SubmissionState := ⟨true, 0, 0, none⟩

/-- One iteration of the loop: a failed wait records a failed test and
continues; otherwise the run lookup (when it resolves) overwrites
final_run_id, the output is verified, and the counters accumulate. -/
def stepTestCase (mode : VerifyMode) (st : SubmissionState)
    (p : TestCase × TestOutcome) : SubmissionState :=
  match p.2.exec with
  | none => { st with all_passed := false }
  | some r =>
    let st1 := match p.2.run with
      | some rid => { st with final_run_id := some rid }
      | none => st
    let passed := verify_output r.stdout p.1.expected_stdout mode
    { st1 with
      all_passed := st1.all_passed && passed,
      total_instructions := st1.total_instructions + (r.instructions : Int),
      max_instructions := max st1.max_instructions (r.instructions : Int) }

def runTestCases (mode : VerifyMode)
    (tests : List (TestCase × TestOutcome)) : SubmissionState :=
  tests.foldl (stepTestCase mode) initSubmissionState

/-- The run_id `process_challenge_submission` hands to the leaderboard
upsert: only when every test passed and some run row resolved. -/
def leaderboardRunId (mode : VerifyMode)
    (tests : List (TestCase × TestOutcome)) : Option Nat :=
  let st := runTestCases mode tests
  if st.all_passed then st.final_run_id else none

theorem mem_of_getLastEq {α : Type} :
    ∀ {l : List α} {a : α}, l.getLast? = some a → a ∈ l := by
  intro l
  induction l with
  | nil => intro a h; simp at h
  | cons x xs ih =>
    intro a h
    cases xs with
    | nil =>
      simp only [List.getLast?_singleton, Option.some.injEq] at h
      rw [h]
      exact List.mem_singleton_self a
    | cons y ys =>
      rw [List.getLast?_cons_cons] at h
      exact List.mem_cons_of_mem x (ih h)

theorem foldl_final_run_id (mode : VerifyMode) :
    ∀ (tests : List (TestCase × TestOutcome)) (st : SubmissionState)
      (p : TestCase × TestOutcome),
      (∀ q ∈ tests, q.2.exec.isSome ∧ q.2.run.isSome) →
      tests.getLast? = some p →
      (tests.foldl (stepTestCase mode) st).final_run_id = p.2.run := by
  intro tests
  induction tests with
  | nil => intro st p _ hlast; simp at hlast
  | cons x xs ih =>
    intro st p hq hlast
    cases xs with
    | nil =>
      simp only [List.getLast?_singleton, Option.some.injEq] at hlast
      rcases hq x (List.mem_singleton_self x) with ⟨hex, hrun⟩
      rcases Option.isSome_iff_exists.mp hex with ⟨r, hr⟩
      rcases Option.isSome_iff_exists.mp hrun with ⟨rid, hrid⟩
      rw [← hlast]
      simp [stepTestCase, hr, hrid]
    | cons y ys =>
      have hlast' : (y :: ys).getLast? = some p := by
        rw [← List.getLast?_cons_cons]; exact hlast
      have hq' : ∀ q ∈ y :: ys, q.2.exec.isSome ∧ q.2.run.isSome :=
        fun q hmem => hq q (List.mem_cons_of_mem x hmem)
      exact ih (stepTestCase mode st x) p hq' hlast'

theorem foldl_all_passed (mode : VerifyMode) :
    ∀ (tests : List (TestCase × TestOutcome)) (st : SubmissionState),
      (∀ q ∈ tests, ∃ r, q.2.exec = some r ∧
        verify_output r.stdout q.1.expected_stdout mode = true) →
      (tests.foldl (stepTestCase mode) st).all_passed = st.all_passed := by
  intro tests
  induction tests with
  | nil => intro st _; rfl
  | cons x xs ih =>
    intro st hq
    rcases hq x (List.mem_cons_self x xs) with ⟨r, hr, hpass⟩
    have hq' : ∀ q ∈ xs, ∃ r, q.2.exec = some r ∧
        verify_output r.stdout q.1.expected_stdout mode = true :=
      fun q hmem => hq q (List.mem_cons_of_mem x hmem)
    rw [List.foldl_cons, ih (stepTestCase mode st x) hq']
    cases hrun : x.2.run with
    | none => simp [stepTestCase, hr, hrun, hpass]
    | some rid => simp [stepTestCase, hr, hrun, hpass]

/-- C5: when every test case executes, passes verification, and has a
persisted run row, the run_id passed to the leaderboard upsert is the run
of the last test case — the last passing execution. -/
theorem c5_upsert_uses_last_passing_run_id (mode : VerifyMode)
    (tests : List (TestCase × TestOutcome)) (p : TestCase × TestOutcome)
    (hall : ∀ q ∈ tests, ∃ r, q.2.exec = some r ∧
      verify_output r.stdout q.1.expected_stdout mode = true ∧ q.2.run.isSome)
    (hlast : tests.getLast? = some p) :
    leaderboardRunId mode tests = p.2.run ∧ p.2.run.isSome := by
  have hsome : ∀ q ∈ tests, q.2.exec.isSome ∧ q.2.run.isSome := by
    intro q hmem
    rcases hall q hmem with ⟨r, hr, _, hrun⟩
    exact ⟨hr ▸ rfl, hrun⟩
  have hpassed : (runTestCases mode tests).all_passed = true := by
    have := foldl_all_passed mode tests initSubmissionState
      (fun q hmem => by
        rcases hall q hmem with ⟨r, hr, hp, _⟩
        exact ⟨r, hr, hp⟩)
    rw [runTestCases, this]
    rfl
  have hfinal : (runTestCases mode tests).final_run_id = p.2.run :=
    foldl_final_run_id mode tests initSubmissionState p hsome hlast
  have hp : p ∈ tests := mem_of_getLastEq hlast
  rcases hall p hp with ⟨_, _, _, hrun⟩
  refine ⟨?_, hrun⟩
  rw [leaderboardRunId]
  simp only [hpassed, if_true]
  exact hfinal

/-- Witness for C5: two passing tests with runs 21 and 22; the upsert gets
run 22. -/
theorem c5_upsert_uses_last_passing_run_id_witness :
    leaderboardRunId VerifyMode.Exact
        [(⟨"", "ok"⟩, ⟨some ⟨"ok", 100, 0⟩, some 21⟩),
         (⟨"", "ok"⟩, ⟨some ⟨"ok", 90, 0⟩, some 22⟩)] = some 22 := by
  have h := c5_upsert_uses_last_passing_run_id VerifyMode.Exact
    [(⟨"", "ok"⟩, ⟨some ⟨"ok", 100, 0⟩, some 21⟩),
     (⟨"", "ok"⟩, ⟨some ⟨"ok", 90, 0⟩, some 22⟩)]
    ((⟨"", "ok"⟩, ⟨some ⟨"ok", 90, 0⟩, some 22⟩))
    (by
      intro q hmem
      rcases List.mem_cons.mp hmem with h | h
      · exact ⟨⟨"ok", 100, 0⟩, by rw [h], by rw [h]; decide, by rw [h]; decide⟩
      · rcases List.mem_singleton.mp h with h
        exact ⟨⟨"ok", 90, 0⟩, by rw [h], by rw [h]; decide, by rw [h]; decide⟩)
    (by decide)
  exact h.1

/-! ## C7: binary store metadata merge (src/api/src/db.rs, store_binary) -/

structure BinaryMetadata where
  language : Option String
  optimization : Option String
  compiler_version : Option String
  compile_flags : Option String
deriving DecidableEq, Repr

structure BinaryRow where
  data : List Nat
  size : Int
  language : Option String
  optimization : Option String
  compiler_version : Option String
  compile_flags : Option String
deriving DecidableEq, Repr

/-- SQL COALESCE on two nullable values: the first non-null one. -/
def coalesce (a b : Option String) : Option String :=
  match a with
  | some x => some x
  | none => b

/-- Model of `store_binary`: INSERT, and ON CONFLICT (id) DO UPDATE SET each
metadata field to COALESCE(EXCLUDED.field, binaries.field); the conflict arm
does not touch data or size. -/
def store_binary (table : String → Option BinaryRow) (id : String)
    (data : List Nat) (metadata : Option BinaryMetadata) :
    String → Option BinaryRow :=
  let m := metadata.getD ⟨none, none, none, none⟩
  fun id' =>
    if id' = id then
      some (match table id with
        | none => ⟨data, data.length, m.language, m.optimization,
            m.compiler_version, m.compile_flags⟩
        | some old =>
          { old with
            language := coalesce m.language old.language,
            optimization := coalesce m.optimization old.optimization,
            compiler_version := coalesce m.compiler_version old.compiler_version,
            compile_flags := coalesce m.compile_flags old.compile_flags })
    else table id'

/-- C7 counterexample: a stored non-null language "c" does not survive a put
whose metadata carries language "rust" — COALESCE(EXCLUDED, stored) lets the
new non-null value win, contradicting stored-takes-precedence. -/
theorem c7_counterexample_new_metadata_overwrites_stored :
    (store_binary
        (fun id => if id = "sha256-aa" then
          some ⟨[1], 1, some "c", none, none, none⟩ else none)
        "sha256-aa" [1] (some ⟨some "rust", none, none, none⟩)) "sha256-aa" =
      some ⟨[1], 1, some "rust", none, none, none⟩ ∧
    (some "rust" : Option String) ≠ some "c" := by
  exact ⟨by decide, by decide⟩

/-- C7 amended: on an existing id the stored bytes and size are unchanged,
and each metadata field becomes COALESCE(new, stored) — the new put's
non-null value takes precedence and stored values survive only where the
new put's value is null; absent ids are inserted; other rows are untouched. -/
theorem c7_store_binary_merge (table : String → Option BinaryRow)
    (id : String) (data : List Nat) (m : BinaryMetadata) :
    (∀ old, table id = some old →
      (store_binary table id data (some m)) id =
        some { old with
          language := coalesce m.language old.language,
          optimization := coalesce m.optimization old.optimization,
          compiler_version := coalesce m.compiler_version old.compiler_version,
          compile_flags := coalesce m.compile_flags old.compile_flags } ∧
      ∀ row, (store_binary table id data (some m)) id = some row →
        row.data = old.data ∧ row.size = old.size) ∧
    (table id = none →
      (store_binary table id data (some m)) id =
        some ⟨data, data.length, m.language, m.optimization,
          m.compiler_version, m.compile_flags⟩) ∧
    (∀ id', id' ≠ id → (store_binary table id data (some m)) id' = table id') ∧
    (∀ f, coalesce none f = f) ∧ (∀ v f, coalesce (some v) f = some v) := by
  refine ⟨fun old hold => ⟨?_, ?_⟩, fun hnone => ?_, fun id' hne => ?_,
    fun f => rfl, fun v f => rfl⟩
  · simp [store_binary, hold]
  · intro row hrow
    simp only [store_binary, hold, if_pos rfl, Option.some.injEq] at hrow
    rw [← hrow]
    exact ⟨rfl, rfl⟩
  · simp [store_binary, hnone]
  · simp [store_binary, hne]

/-- Witness for C7 amended at a concrete table: null compiler_version is
filled, non-null optimization is overwritten, bytes stay. -/
theorem c7_store_binary_merge_witness :
    (store_binary
        (fun id => if id = "sha256-bb" then
          some ⟨[5, 6], 2, none, some "debug", none, none⟩ else none)
        "sha256-bb" [9]
        (some ⟨some "c", some "release", some "gcc-13", none⟩)) "sha256-bb" =
      some ⟨[5, 6], 2, some "c", some "release", some "gcc-13", none⟩ := by
  have h := (c7_store_binary_merge
    (fun id => if id = "sha256-bb" then
      some ⟨[5, 6], 2, none, some "debug", none, none⟩ else none)
    "sha256-bb" [9] ⟨some "c", some "release", some "gcc-13", none⟩).1
    ⟨[5, 6], 2, none, some "debug", none, none⟩ (by decide)
  exact h.1

/-! ## C9: metadata status writes (update_job_status, update_compile_status) -/

inductive JobStatus
  | Pending
  | Running
  | Completed
  | Failed
deriving DecidableEq, Repr

inductive CompileStatus
  | Pending
  | Compiling
  | Completed
  | Failed
deriving DecidableEq, Repr

structure JobMetadata where
  status : JobStatus
  started_at : Option Nat
  completed_at : Option Nat
  error : Option String
deriving DecidableEq, Repr

structure CompileMetadata where
  status : CompileStatus
  started_at : Option Nat
  completed_at : Option Nat
  error : Option String
deriving DecidableEq, Repr

/-- The metadata rewrite both status updaters perform: the status field is
overwritten unconditionally, then timestamps and error are filled per the
new status. -/
def applyJobStatus (md : JobMetadata) (status : JobStatus)
    (error : Option String) (now : Nat) : JobMetadata :=
  let md1 := { md with status := status }
  match status with
  | .Running => { md1 with started_at := some now }
  | .Completed => { md1 with completed_at := some now, error := error }
  | .Failed => { md1 with completed_at := some now, error := error }
  | .Pending => md1

def applyCompileStatus (md : CompileMetadata) (status : CompileStatus)
    (error : Option String) (now : Nat) : CompileMetadata :=
  let md1 := { md with status := status }
  match status with
  | .Compiling => { md1 with started_at := some now }
  | .Completed => { md1 with completed_at := some now, error := error }
  | .Failed => { md1 with completed_at := some now, error := error }
  | .Pending => md1

/-- Model of `update_job_status` (src/worker/src/main.rs and
src/api/src/queue.rs): read the metadata, overwrite, write back. -/
def update_job_status (kv : String → Option JobMetadata) (job_id : String)
    (status : JobStatus) (error : Option String) (now : Nat) :
    Except String (String → Option JobMetadata) :=
  match kv job_id with
  | none => Except.error "Job not found"
  | some md =>
    Except.ok (fun k =>
      if k = job_id then some (applyJobStatus md status error now) else kv k)

/-- Model of `update_compile_status` (src/compile-worker/src/main.rs). -/
def update_compile_status (kv : String → Option CompileMetadata)
    (job_id : String) (status : CompileStatus) (error : Option String)
    (now : Nat) : Except String (String → Option CompileMetadata) :=
  match kv job_id with
  | none => Except.error "Compile job not found"
  | some md =>
    Except.ok (fun k =>
      if k = job_id then some (applyCompileStatus md status error now) else kv k)

/-- C9 counterexample: a job whose metadata is terminal (Completed) is moved
back to Running by the very next `update_job_status` call — the code has no
terminal-state guard, so a redelivered message reverts the machine. -/
theorem c9_counterexample_terminal_status_reverts :
    (match update_job_status
        (fun j => if j = "job1" then
          some ⟨JobStatus.Completed, some 1, some 5, none⟩ else none)
        "job1" JobStatus.Running none 9 with
      | Except.ok kv => (kv "job1").map (fun md => md.status)
      | Except.error _ => none) = some JobStatus.Running ∧
    JobStatus.Running ≠ JobStatus.Completed := by
  exact ⟨by decide, by decide⟩

/-- C9 amended: both status updaters overwrite the stored status
unconditionally — the status after a successful call is always the argument
status, whatever state (terminal included) the metadata was in, so terminal
states are not absorbing. -/
theorem c9_update_status_overwrites_unconditionally :
    (∀ (kv : String → Option JobMetadata) job_id status error now md,
      kv job_id = some md →
      update_job_status kv job_id status error now =
        Except.ok (fun k =>
          if k = job_id then some (applyJobStatus md status error now)
          else kv k) ∧
      (applyJobStatus md status error now).status = status) ∧
    (∀ (kv : String → Option CompileMetadata) job_id status error now md,
      kv job_id = some md →
      update_compile_status kv job_id status error now =
        Except.ok (fun k =>
          if k = job_id then some (applyCompileStatus md status error now)
          else kv k) ∧
      (applyCompileStatus md status error now).status = status) := by
  constructor
  · intro kv job_id status error now md h
    refine ⟨by rw [update_job_status, h], ?_⟩
    cases status <;> rfl
  · intro kv job_id status error now md h
    refine ⟨by rw [update_compile_status, h], ?_⟩
    cases status <;> rfl

/-- Witness for C9 amended: a Completed compile job is rewritten to
Compiling by the next call, as on a redelivered message. -/
theorem c9_update_status_overwrites_unconditionally_witness :
    update_compile_status
        (fun j => if j = "cj" then
          some ⟨CompileStatus.Completed, some 1, some 5, none⟩ else none)
        "cj" CompileStatus.Compiling none 9 =
      Except.ok (fun k =>
        if k = "cj" then
          some (applyCompileStatus ⟨CompileStatus.Completed, some 1, some 5, none⟩
            CompileStatus.Compiling none 9)
        else if k = "cj" then
          some ⟨CompileStatus.Completed, some 1, some 5, none⟩ else none) ∧
    (applyCompileStatus ⟨CompileStatus.Completed, some 1, some 5, none⟩
      CompileStatus.Compiling none 9).status = CompileStatus.Compiling :=
  (c9_update_status_overwrites_unconditionally).2
    (fun j => if j = "cj" then
      some ⟨CompileStatus.Completed, some 1, some 5, none⟩ else none)
    "cj" CompileStatus.Compiling none 9
    ⟨CompileStatus.Completed, some 1, some 5, none⟩ (by decide)

/-! ## C3, C6: the compile-cache fingerprint (compute_cache_key) -/

inductive Language
  | C
  | Cpp
  | Rust
  | Go
  | Zig
  | Asm
  | Nim
  | Pascal
  | Ocaml
  | Swift
  | Haskell
  | Csharp
  | Java
  | Kotlin
  | Scala
  | Clojure
  | Python
  | Javascript
  | Typescript
  | Bun
  | Deno
  | Node
  | Lua
  | Perl
  | Php
  | Tcl
  | Erlang
  | Elixir
  | Racket
  | Wasm
deriving DecidableEq, Repr

/-- The canonical lowercase tag `Language::as_str` returns. -/
def Language.as_str : Language → String
  | .C => "c"
  | .Cpp => "cpp"
  | .Rust => "rust"
  | .Go => "go"
  | .Zig => "zig"
  | .Asm => "asm"
  | .Nim => "nim"
  | .Pascal => "pascal"
  | .Ocaml => "ocaml"
  | .Swift => "swift"
  | .Haskell => "haskell"
  | .Csharp => "csharp"
  | .Java => "java"
  | .Kotlin => "kotlin"
  | .Scala => "scala"
  | .Clojure => "clojure"
  | .Python => "python"
  | .Javascript => "javascript"
  | .Typescript => "typescript"
  | .Bun => "bun"
  | .Deno => "deno"
  | .Node => "node"
  | .Lua => "lua"
  | .Perl => "perl"
  | .Php => "php"
  | .Tcl => "tcl"
  | .Erlang => "erlang"
  | .Elixir => "elixir"
  | .Racket => "racket"
  | .Wasm => "wasm"

inductive Optimization
  | Debug
  | Release
  | Size
deriving DecidableEq, Repr

def Optimization.as_str : Optimization → String
  | .Debug => "debug"
  | .Release => "release"
  | .Size => "size"

/-- UTF-8 encoding of one character, byte values as naturals. -/
def utf8Bytes (c : Char) : List Nat :=
  let n := c.toNat
  if n < 128 then [n]
  else if n < 2048 then [192 + n / 64, 128 + n % 64]
  else if n < 65536 then [224 + n / 4096, 128 + n / 64 % 64, 128 + n % 64]
  else [240 + n / 262144, 128 + n / 4096 % 64, 128 + n / 64 % 64, 128 + n % 64]

/-- The UTF-8 bytes of a string, matching Rust's `str::as_bytes`. -/
def strBytes (s : String) : List Nat :=
  s.data.foldr (fun c acc => utf8Bytes c ++ acc) []

/-! SHA-256 over byte lists, word arithmetic carried in Nat modulo 2^32. -/

def w32 (n : Nat) : Nat := n % 4294967296

/-- Right rotation of a 32-bit word. -/
def rotr32 (n k : Nat) : Nat := n / 2 ^ k + n % 2 ^ k * 2 ^ (32 - k)

def smallSigma0 (x : Nat) : Nat := rotr32 x 7 ^^^ rotr32 x 18 ^^^ x / 2 ^ 3

def smallSigma1 (x : Nat) : Nat := rotr32 x 17 ^^^ rotr32 x 19 ^^^ x / 2 ^ 10

def bigSigma0 (x : Nat) : Nat := rotr32 x 2 ^^^ rotr32 x 13 ^^^ rotr32 x 22

def bigSigma1 (x : Nat) : Nat := rotr32 x 6 ^^^ rotr32 x 11 ^^^ rotr32 x 25

def shaK : List Nat :=
  [1116352408, 1899447441, 3049323471, 3921009573, 961987163,
   1508970993, 2453635748, 2870763221, 3624381080, 310598401,
   607225278, 1426881987, 1925078388, 2162078206, 2614888103,
   3248222580, 3835390401, 4022224774, 264347078, 604807628,
   770255983, 1249150122, 1555081692, 1996064986, 2554220882,
   2821834349, 2952996808, 3210313671, 3336571891, 3584528711,
   113926993, 338241895, 666307205, 773529912, 1294757372,
   1396182291, 1695183700, 1986661051, 2177026350, 2456956037,
   2730485921, 2820302411, 3259730800, 3345764771, 3516065817,
   3600352804, 4094571909, 275423344, 430227734, 506948616,
   659060556, 883997877, 958139571, 1322822218, 1537002063,
   1747873779, 1955562222, 2024104815, 2227730452, 2361852424,
   2428436474, 2756734187, 3204031479, 3329325298]

structure Sha8 where
  a : Nat
  b : Nat
  c : Nat
  d : Nat
  e : Nat
  f : Nat
  g : Nat
  h : Nat
deriving DecidableEq, Repr

def compressStep (st : Sha8) (kw : Nat × Nat) : Sha8 :=
  let ch := st.e &&& st.f ^^^ (st.e ^^^ 4294967295) &&& st.g
  let temp1 := w32 (st.h + bigSigma1 st.e + ch + kw.1 + kw.2)
  let maj := st.a &&& st.b ^^^ st.a &&& st.c ^^^ st.b &&& st.c
  let temp2 := w32 (bigSigma0 st.a + maj)
  ⟨w32 (temp1 + temp2), st.a, st.b, st.c, w32 (st.d + temp1), st.e, st.f, st.g⟩

def wordsOfBlock : List Nat → List Nat
  | b0 :: b1 :: b2 :: b3 :: rest =>
    (((b0 * 256 + b1) * 256 + b2) * 256 + b3) :: wordsOfBlock rest
  | _ => []

def extendSchedule : Nat → List Nat → List Nat
  | 0, ws => ws
  | n + 1, ws =>
    let t := ws.length
    let w15 := ws.getD (t - 15) 0
    let w2 := ws.getD (t - 2) 0
    let w16 := ws.getD (t - 16) 0
    let w7 := ws.getD (t - 7) 0
    extendSchedule n (ws ++ [w32 (w16 + smallSigma0 w15 + w7 + smallSigma1 w2)])

def processBlock (st : Sha8) (block : List Nat) : Sha8 :=
  let ws := extendSchedule 48 (wordsOfBlock block)
  let r := (shaK.zip ws).foldl compressStep st
  ⟨w32 (st.a + r.a), w32 (st.b + r.b), w32 (st.c + r.c), w32 (st.d + r.d),
   w32 (st.e + r.e), w32 (st.f + r.f), w32 (st.g + r.g), w32 (st.h + r.h)⟩

def lenBytes64 (n : Nat) : List Nat :=
  [n / 2 ^ 56 % 256, n / 2 ^ 48 % 256, n / 2 ^ 40 % 256, n / 2 ^ 32 % 256,
   n / 2 ^ 24 % 256, n / 2 ^ 16 % 256, n / 2 ^ 8 % 256, n % 256]

def sha256pad (msg : List Nat) : List Nat :=
  msg ++ 128 :: List.replicate ((119 - msg.length % 64) % 64) 0 ++
    lenBytes64 (msg.length * 8)

def toBlocksFuel : Nat → List Nat → List (List Nat)
  | 0, _ => []
  | _, [] => []
  | n + 1, x :: rest => (x :: rest).take 64 :: toBlocksFuel n ((x :: rest).drop 64)

/-- Split into 64-byte blocks; the fuel is an upper bound on the number of
blocks, so the list's own length always suffices. -/
def toBlocks (l : List Nat) : List (List Nat) := toBlocksFuel l.length l

def hexChar (n : Nat) : Char :=
  if n < 10 then Char.ofNat (48 + n) else Char.ofNat (87 + n)

def hexByte (n : Nat) : List Char := [hexChar (n / 16), hexChar (n % 16)]

def sha256hex (msg : List Nat) : String :=
  let st := (toBlocks (sha256pad msg)).foldl processBlock
    ⟨1779033703, 3144134277, 1013904242, 2773480762,
     1359893119, 2600822924, 528734635, 1541459225⟩
  String.mk (([st.a, st.b, st.c, st.d, st.e, st.f, st.g, st.h].foldr
    (fun wv acc => hexByte (wv / 2 ^ 24 % 256) ++ hexByte (wv / 2 ^ 16 % 256) ++
      hexByte (wv / 2 ^ 8 % 256) ++ hexByte (wv % 256) ++ acc) []))

/-- Key order used by `flag_pairs.sort_by_key`. -/
def flagLeB (p q : String × String) : Bool := charListLe p.1.data q.1.data

/-- The sorted "k=v;" rendering of the flag map appended to the hash input. -/
def flagBytes (flags : List (String × String)) : List Nat :=
  (sortLe flagLeB flags).foldr
    (fun kv acc => strBytes kv.1 ++ strBytes "=" ++ strBytes kv.2 ++
      strBytes ";" ++ acc) []

/-- The byte stream `compute_cache_key` feeds to the SHA-256 hasher. -/
def cacheKeyBytes (source : String) (language : Language)
    (optimization : Optimization) (flags : List (String × String)) : List Nat :=
  strBytes source ++ strBytes language.as_str ++
    strBytes optimization.as_str ++ flagBytes flags

/-- Model of `compute_cache_key`, identical in src/api/src/queue.rs and
src/compile-worker/src/main.rs.  The flag map is a HashMap, so it reaches
the function as an arbitrary-order association list with distinct keys. -/
def compute_cache_key (source : String) (language : Language)
    (optimization : Optimization) (flags : List (String × String)) : String :=
  sha256hex (cacheKeyBytes source language optimization flags)

set_option maxRecDepth 100000 in
example : sha256hex (strBytes "abc") =
    "ba7816bf8f01cfea414140de5dae2223b00361a396177a9cb410ff61f20015ad" := by
  decide

theorem flagLeB_total (p q : String × String) :
    flagLeB p q = true ∨ flagLeB q p = true :=
  charListLe_total p.1.data q.1.data

theorem flagLeB_trans (p q r : String × String) :
    flagLeB p q = true → flagLeB q r = true → flagLeB p r = true :=
  charListLe_trans p.1.data q.1.data r.1.data

theorem sorted_flag_strict {l : List (String × String)}
    (hs : List.Sorted (fun p q => flagLeB p q = true) l)
    (hn : (l.map Prod.fst).Nodup) :
    List.Sorted (fun p q : String × String => flagLeB p q = true ∧ p.1 ≠ q.1)
      l := by
  have hne : List.Pairwise (fun p q : String × String => p.1 ≠ q.1) l :=
    List.pairwise_map.mp hn
  exact hs.and hne

theorem flag_strict_antisymm (p q : String × String)
    (h1 : flagLeB p q = true ∧ p.1 ≠ q.1)
    (h2 : flagLeB q p = true ∧ q.1 ≠ p.1) : p = q :=
  absurd (String.ext (charListLe_antisymm p.1.data q.1.data h1.1 h2.1)) h1.2

/-- C3: the fingerprint is invariant under permutation of the flag map's
entries, and equals the SHA-256 hex digest of the source bytes, the
lowercase language tag, the optimization tag, and the "k=v;" pairs
concatenated in byte-lexicographic key order (the sorted pass is a
permutation of the map sorted by key). -/
theorem c3_compute_cache_key_flag_order (source : String) (language : Language)
    (optimization : Optimization) (flags flags' : List (String × String))
    (hperm : List.Perm flags flags')
    (hnodup : (flags.map Prod.fst).Nodup) :
    compute_cache_key source language optimization flags =
      compute_cache_key source language optimization flags' ∧
    compute_cache_key source language optimization flags =
      sha256hex (strBytes source ++ strBytes language.as_str ++
        strBytes optimization.as_str ++ flagBytes flags) ∧
    List.Perm (sortLe flagLeB flags) flags ∧
    List.Sorted (fun p q => flagLeB p q = true) (sortLe flagLeB flags) := by
  have hn2 : (flags'.map Prod.fst).Nodup := ((hperm.map Prod.fst).nodup_iff).mp hnodup
  have hp1 := sortLe_perm flagLeB flags
  have hp2 := sortLe_perm flagLeB flags'
  have hs1 := sortLe_sorted flagLeB flagLeB_total flagLeB_trans flags
  have hs2 := sortLe_sorted flagLeB flagLeB_total flagLeB_trans flags'
  have hn1' : ((sortLe flagLeB flags).map Prod.fst).Nodup :=
    ((hp1.map Prod.fst).nodup_iff).mpr hnodup
  have hn2' : ((sortLe flagLeB flags').map Prod.fst).Nodup :=
    ((hp2.map Prod.fst).nodup_iff).mpr hn2
  have hpp : List.Perm (sortLe flagLeB flags) (sortLe flagLeB flags') :=
    hp1.trans (hperm.trans hp2.symm)
  haveI : IsAntisymm (String × String)
      (fun p q => flagLeB p q = true ∧ p.1 ≠ q.1) :=
    ⟨fun p q h1 h2 => flag_strict_antisymm p q h1 h2⟩
  have heq : sortLe flagLeB flags = sortLe flagLeB flags' :=
    List.eq_of_perm_of_sorted hpp (sorted_flag_strict hs1 hn1')
      (sorted_flag_strict hs2 hn2')
  refine ⟨?_, rfl, hp1, hs1⟩
  unfold compute_cache_key cacheKeyBytes flagBytes
  rw [heq]

/-- Witness for C3 at a two-flag map listed in both orders. -/
theorem c3_compute_cache_key_flag_order_witness :
    compute_cache_key "s" Language.C Optimization.Release
        [("b", "2"), ("a", "1")] =
      compute_cache_key "s" Language.C Optimization.Release
        [("a", "1"), ("b", "2")] ∧
    compute_cache_key "s" Language.C Optimization.Release
        [("b", "2"), ("a", "1")] =
      sha256hex (strBytes "s" ++ strBytes (Language.C).as_str ++
        strBytes (Optimization.Release).as_str ++
        flagBytes [("b", "2"), ("a", "1")]) ∧
    List.Perm (sortLe flagLeB [("b", "2"), ("a", "1")])
      [("b", "2"), ("a", "1")] ∧
    List.Sorted (fun p q => flagLeB p q = true)
      (sortLe flagLeB [("b", "2"), ("a", "1")]) :=
  c3_compute_cache_key_flag_order "s" Language.C Optimization.Release
    [("b", "2"), ("a", "1")] [("a", "1"), ("b", "2")]
    (List.Perm.swap ("a", "1") ("b", "2") []) (by decide)

/-! ## C6: compile-cache validation (check_compile_cache vs the worker) -/

structure CompileResult where
  binary_id : String
  binary_size : Nat
  compile_time_ms : Nat
  cached : Bool
deriving DecidableEq, Repr

/-- Model of `check_compile_cache` (src/api/src/queue.rs): probe the cache
KV at the fingerprint, raise on an unparseable entry, and return a parsed
hit only after the binaries KV resolves the referenced binary_id, else a
miss.  The serde decoding of the raw entry is the `parseEntry` parameter. -/
def check_compile_cache {β : Type} (cache_kv : String → Option β)
    (parseEntry : β → Option CompileResult)
    (binaries_kv : String → Option (List Nat)) (source : String)
    (language : Language) (optimization : Optimization)
    (flags : List (String × String)) : Except String (Option CompileResult) :=
  match cache_kv (compute_cache_key source language optimization flags) with
  | some entry =>
    match parseEntry entry with
    | none => Except.error "Failed to parse cache entry"
    | some result =>
      match binaries_kv result.binary_id with
      | some _ => Except.ok (some result)
      | none => Except.ok none
  | none => Except.ok none

/-- Model of the compile worker's cache probe (src/compile-worker/src/main.rs
main loop): any parseable hit is republished with cached set to true; the
binary store is not consulted. -/
def worker_cache_hit {β : Type} (cache_kv : String → Option β)
    (parseEntry : β → Option CompileResult) (cache_key : String) :
    Option CompileResult :=
  match cache_kv cache_key with
  | some entry =>
    match parseEntry entry with
    | some r => some { r with cached := true }
    | none => none
  | none => none

/-- C6 counterexample: with a cache entry referencing binary id
"sha256-gone" and an empty binary store, the compile worker's cache path
still publishes a cached:true result — it never checks the binary store. -/
theorem c6_counterexample_worker_publishes_without_binary :
    worker_cache_hit
        (fun _ => some (⟨"sha256-gone", 10, 5, false⟩ : CompileResult))
        some "anykey" =
      some ⟨"sha256-gone", 10, 5, true⟩ ∧
    (fun _ => (none : Option (List Nat))) "sha256-gone" = none :=
  ⟨rfl, rfl⟩

/-- C6 amended: check_compile_cache returns a CompileResult only if the
referenced binary_id currently resolves, and reports a miss when the binary
is gone; the compile worker however publishes cached:true for every
parseable cache hit without validating the binary. -/
theorem c6_cache_lookup_validates_but_worker_does_not (β : Type)
    (cache_kv : String → Option β) (parseEntry : β → Option CompileResult)
    (binaries_kv : String → Option (List Nat)) (source : String)
    (language : Language) (optimization : Optimization)
    (flags : List (String × String)) :
    (∀ r, check_compile_cache cache_kv parseEntry binaries_kv source language
        optimization flags = Except.ok (some r) →
      ∃ b, binaries_kv r.binary_id = some b) ∧
    (∀ entry r,
      cache_kv (compute_cache_key source language optimization flags) =
        some entry →
      parseEntry entry = some r →
      binaries_kv r.binary_id = none →
      check_compile_cache cache_kv parseEntry binaries_kv source language
        optimization flags = Except.ok none) ∧
    (∀ key entry r, cache_kv key = some entry → parseEntry entry = some r →
      worker_cache_hit cache_kv parseEntry key =
        some { r with cached := true }) := by
  refine ⟨fun r h => ?_, fun entry r hc hp hb => ?_, fun key entry r hc hp => ?_⟩
  · unfold check_compile_cache at h
    cases hc : cache_kv (compute_cache_key source language optimization flags) with
    | none => simp [hc] at h
    | some entry =>
      cases hp : parseEntry entry with
      | none => simp [hc, hp] at h
      | some result =>
        cases hb : binaries_kv result.binary_id with
        | none => simp [hc, hp, hb] at h
        | some b =>
          simp only [hc, hp, hb, Except.ok.injEq, Option.some.injEq] at h
          exact ⟨b, h ▸ hb⟩
  · simp [check_compile_cache, hc, hp, hb]
  · simp [worker_cache_hit, hc, hp]

/-- Witness for C6 amended: a concrete cache entry, hit and missing-binary
miss, plus the worker republishing cached:true. -/
theorem c6_cache_lookup_validates_but_worker_does_not_witness :
    (∃ b, (fun _ => some ([7] : List Nat)) ("sha256-x" : String) = some b) ∧
    check_compile_cache
        (fun _ => some (⟨"sha256-x", 3, 4, false⟩ : CompileResult)) some
        (fun _ => none) "s" Language.C Optimization.Release [] =
      Except.ok none ∧
    worker_cache_hit
        (fun _ => some (⟨"sha256-x", 3, 4, false⟩ : CompileResult)) some "k" =
      some ⟨"sha256-x", 3, 4, true⟩ := by
  refine ⟨?_, ?_, ?_⟩
  · exact (c6_cache_lookup_validates_but_worker_does_not CompileResult
      (fun _ => some ⟨"sha256-x", 3, 4, false⟩) some (fun _ => some [7])
      "s" Language.C Optimization.Release []).1 ⟨"sha256-x", 3, 4, false⟩ rfl
  · exact (c6_cache_lookup_validates_but_worker_does_not CompileResult
      (fun _ => some ⟨"sha256-x", 3, 4, false⟩) some (fun _ => none)
      "s" Language.C Optimization.Release []).2.1 ⟨"sha256-x", 3, 4, false⟩
      ⟨"sha256-x", 3, 4, false⟩ rfl rfl rfl
  · exact (c6_cache_lookup_validates_but_worker_does_not CompileResult
      (fun _ => some ⟨"sha256-x", 3, 4, false⟩) some (fun _ => none)
      "s" Language.C Optimization.Release []).2.2 "k"
      ⟨"sha256-x", 3, 4, false⟩ ⟨"sha256-x", 3, 4, false⟩ rfl rfl

/-! ## C4: trailing stats line parsing (src/worker/src/main.rs,
execute_sandbox; same shape in src/api/src/sandbox.rs) -/

/-- The stats fields the instrumentation guest reports on the last stderr
line. -/
structure PluginStats where
  instructions : Nat
  memory_peak_kb : Nat
  memory_rss_kb : Nat
  memory_hwm_kb : Nat
  memory_data_kb : Nat
  memory_stack_kb : Nat
  io_read_bytes : Nat
  io_write_bytes : Nat
  guest_mmap_bytes : Nat
  guest_mmap_peak : Nat
  guest_heap_bytes : Nat
  limit_reached : Bool
  syscalls : Nat
  syscall_cost : Nat
  syscall_breakdown : List (String × Nat)
deriving DecidableEq, Repr

/-- The all-zero default used when the stats line is absent or unparseable. -/
def zeroStats : PluginStats :=
  ⟨0, 0, 0, 0, 0, 0, 0, 0, 0, 0, 0, false, 0, 0, []⟩

/-- Split a byte string at its last newline: `some (before, after)` with
`after` newline-free, `none` when no newline occurs. -/
def lastLineSplit : List Nat → Option (List Nat × List Nat)
  | [] => none
  | b :: rest =>
    match lastLineSplit rest with
    | some (pre, grp) => some (b :: pre, grp)
    | none => if b = 10 then some ([], rest) else none

/-- The match of the stats regex on stderr: a final line that is brace
delimited, newline free and non-empty inside the braces, preceded by a
newline, with one optional trailing newline.  Returns the stderr prefix the
code truncates to, and the captured JSON group. -/
def splitStats (s : List Nat) : Option (List Nat × List Nat) :=
  let t := if s.getLast? = some 10 then s.dropLast else s
  match lastLineSplit t with
  | none => none
  | some (pre, grp) =>
    if grp.head? = some 123 ∧ grp.getLast? = some 125 ∧ 3 ≤ grp.length then
      some (pre, grp)
    else none

/-- The stats extraction of `execute_sandbox`: on a regex match the stderr
is truncated to just before the matched newline and the JSON group is
parsed (serde_json is the `parse` parameter), any parse failure falling
back to zeros; with no match stderr is untouched and the stats are zeros. -/
def executeStats (parse : List Nat → Option PluginStats) (stderr : List Nat) :
    List Nat × PluginStats :=
  match splitStats stderr with
  | some (pre, grp) => (pre, (parse grp).getD zeroStats)
  | none => (stderr, zeroStats)

def b64Char (n : Nat) : Char :=
  "ABCDEFGHIJKLMNOPQRSTUVWXYZabcdefghijklmnopqrstuvwxyz0123456789+/".data.getD
    n 'A'

/-- Standard base64 with padding, as the worker's BASE64.encode. -/
def base64Encode : List Nat → List Char
  | [] => []
  | [a] => [b64Char (a / 4), b64Char (a % 4 * 16), '=', '=']
  | [a, b] => [b64Char (a / 4), b64Char (a % 4 * 16 + b / 16),
      b64Char (b % 16 * 4), '=']
  | a :: b :: c :: rest =>
    b64Char (a / 4) :: b64Char (a % 4 * 16 + b / 16) ::
      b64Char (b % 16 * 4 + c / 64) :: b64Char (c % 64) :: base64Encode rest

/-- The stderr field of the assembled ExecutionResult: base64 of the
(possibly truncated) stderr bytes. -/
def execution_result_stderr (parse : List Nat → Option PluginStats)
    (stderr : List Nat) : String :=
  String.mk (base64Encode (executeStats parse stderr).1)

theorem lastLineSplit_of_no_newline :
    ∀ l : List Nat, 10 ∉ l → lastLineSplit l = none := by
  intro l
  induction l with
  | nil => intro _; rfl
  | cons b rest ih =>
    intro h
    have hrest : 10 ∉ rest := fun hm => h (List.mem_cons_of_mem b hm)
    have hb : b ≠ 10 := fun hb => h (hb ▸ List.mem_cons_self b rest)
    simp [lastLineSplit, ih hrest, hb]

theorem lastLineSplit_append (t g : List Nat) (hg : 10 ∉ g) :
    lastLineSplit (t ++ 10 :: g) = some (t, g) := by
  induction t with
  | nil => simp [lastLineSplit, lastLineSplit_of_no_newline g hg]
  | cons a t' ih => simp [lastLineSplit, ih]

theorem splitStats_decomp (t g tl : List Nat)
    (htl : tl = [] ∨ tl = [10]) (hh : g.head? = some 123)
    (hl : g.getLast? = some 125) (hlen : 3 ≤ g.length) (hng : 10 ∉ g) :
    splitStats (t ++ 10 :: (g ++ tl)) = some (t, g) := by
  rcases htl with htl | htl
  · subst htl
    have hs : t ++ 10 :: (g ++ []) = t ++ 10 :: g := by simp
    rw [hs]
    have hgl : (t ++ 10 :: g).getLast? = some 125 := by
      cases g with
      | nil => simp at hl
      | cons g0 g' =>
        rw [List.getLast?_append_cons, List.getLast?_cons_cons]
        exact hl
    unfold splitStats
    simp [hgl, lastLineSplit_append t g hng, hh, hl, hlen]
  · subst htl
    have hc : (10 :: (g ++ [10])).getLast? = some 10 := by
      rw [show (10 :: (g ++ [10])) = (10 :: g) ++ [10] by simp]
      exact List.getLast?_concat _
    have hdrop : (10 :: (g ++ [10])).dropLast = 10 :: g := by
      rw [show (10 :: (g ++ [10])) = (10 :: g) ++ [10] by simp]
      exact List.dropLast_concat
    unfold splitStats
    simp [hc, hdrop, lastLineSplit_append t g hng, hh, hl, hlen]

/-- C4: when stderr decomposes as prefix, newline, a brace-delimited
newline-free JSON line and an optional final newline, the execute worker
truncates stderr to the prefix (base64-encoded into the ExecutionResult)
and takes the stats from parsing the group, parse failures and non-matching
stderr falling back to all-zero stats with limit_reached false. -/
theorem c4_stats_line_stripped (parse : List Nat → Option PluginStats)
    (t g tl : List Nat) (htl : tl = [] ∨ tl = [10])
    (hh : g.head? = some 123) (hl : g.getLast? = some 125)
    (hlen : 3 ≤ g.length) (hng : 10 ∉ g) :
    splitStats (t ++ 10 :: (g ++ tl)) = some (t, g) ∧
    executeStats parse (t ++ 10 :: (g ++ tl)) = (t, (parse g).getD zeroStats) ∧
    execution_result_stderr parse (t ++ 10 :: (g ++ tl)) =
      String.mk (base64Encode t) ∧
    (∀ s, splitStats s = none → executeStats parse s = (s, zeroStats)) ∧
    zeroStats.instructions = 0 ∧ zeroStats.limit_reached = false := by
  have hd := splitStats_decomp t g tl htl hh hl hlen hng
  refine ⟨hd, ?_, ?_, fun s h => ?_, rfl, rfl⟩
  · rw [executeStats, hd]
  · rw [execution_result_stderr, executeStats, hd]
  · rw [executeStats, h]

/-- The stderr of the stats-stripping example: trace A, trace B. -/
def exTrace : List Nat := strBytes "trace A\ntrace B"

/-- The JSON group of the example, instructions 42, memory_peak_kb 100,
limit_reached false (brace bytes 123 and 125 written numerically). -/
def exJson : List Nat :=
  123 :: strBytes
    "\"instructions\":42,\"memory_peak_kb\":100,\"limit_reached\":false"
    ++ [125]

/-- The parse of the example group, standing in for serde_json. -/
def exStats : PluginStats :=
  ⟨42, 100, 0, 0, 0, 0, 0, 0, 0, 0, 0, false, 0, 0, []⟩

def exParse (g : List Nat) : Option PluginStats :=
  if g = exJson then some exStats else none

/-- Witness for C4 at the spec's example stderr. -/
theorem c4_stats_line_stripped_witness :
    executeStats exParse (exTrace ++ 10 :: (exJson ++ [10])) =
      (exTrace, (exParse exJson).getD zeroStats) ∧
    ((exParse exJson).getD zeroStats).instructions = 42 ∧
    execution_result_stderr exParse (exTrace ++ 10 :: (exJson ++ [10])) =
      String.mk (base64Encode exTrace) := by
  have h := c4_stats_line_stripped exParse exTrace exJson [10] (Or.inr rfl)
    (by decide) (by decide) (by decide) (by decide)
  exact ⟨h.2.1, by decide, h.2.2.1⟩

/-! ## C8: the global score (src/api/src/db.rs, get_global_leaderboard) -/

structure LBRow where
  user_id : Nat
  challenge_id : String
  language : String
  instructions : Int
deriving DecidableEq, Repr

/-- The correlated subquery MIN(instructions) over rows sharing the
(challenge_id, language) of the scored row. -/
def minInstructions (rows : List LBRow) (c l : String) : Int :=
  match (rows.filter (fun r => r.challenge_id == c && r.language == l)).map
      (fun r => r.instructions) with
  | [] => 0
  | x :: xs => xs.foldl min x

/-- Round to nearest integer with ties to even: the semantics of the
Postgres float8 to bigint cast applied to the score expression. -/
def roundHalfEven (q : ℚ) : Int :=
  let f := Int.floor q
  if q - f < 1 / 2 then f
  else if (1 : ℚ) / 2 < q - f then f + 1
  else if f % 2 = 0 then f else f + 1

/-- The per-row CASE expression: exactly 1000 at the group minimum, else
best / instructions × 1000 computed as float and cast to bigint, modelled
in exact rationals with the rounding cast. -/
def contribution (rows : List LBRow) (r : LBRow) : Int :=
  let best := minInstructions rows r.challenge_id r.language
  if r.instructions = best then 1000
  else roundHalfEven ((best : ℚ) / (r.instructions : ℚ) * 1000)

/-- The spec sentence's formula, with a floor in place of the cast;
written from the spec for comparison against the code. -/
def floorContribution (rows : List LBRow) (r : LBRow) : Int :=
  let best := minInstructions rows r.challenge_id r.language
  if r.instructions = best then 1000
  else Int.floor ((best : ℚ) / (r.instructions : ℚ) * 1000)

/-- GROUP BY le.user_id: the distinct user ids. -/
def userIds (rows : List LBRow) : List Nat :=
  (rows.map (fun r => r.user_id)).dedup

/-- SUM of the user's row contributions. -/
def total_score (rows : List LBRow) (u : Nat) : Int :=
  ((rows.filter (fun r => r.user_id == u)).map (contribution rows)).sum

/-- ORDER BY total_score DESC. -/
def scoreDescLe (a b : Nat × Int) : Bool := decide (b.2 ≤ a.2)

/-- Model of get_global_leaderboard (without the row limit and user-type
filter, which only restrict the output): each user with their total score,
ordered by total score descending. -/
def get_global_leaderboard (rows : List LBRow) : List (Nat × Int) :=
  sortLe scoreDescLe ((userIds rows).map (fun u => (u, total_score rows u)))

theorem foldl_min_le_init : ∀ (xs : List Int) (x : Int), xs.foldl min x ≤ x := by
  intro xs
  induction xs with
  | nil => intro x; exact le_refl x
  | cons z zs ih =>
    intro x
    calc (z :: zs).foldl min x = zs.foldl min (min x z) := rfl
      _ ≤ min x z := ih (min x z)
      _ ≤ x := min_le_left x z

theorem foldl_min_le (y : Int) :
    ∀ (xs : List Int) (x : Int), y ∈ x :: xs → xs.foldl min x ≤ y := by
  intro xs
  induction xs with
  | nil =>
    intro x hy
    rw [List.mem_singleton.mp hy]
    exact le_refl x
  | cons z zs ih =>
    intro x hy
    rcases List.mem_cons.mp hy with hy | hy
    · exact le_trans (foldl_min_le_init (z :: zs) x) (le_of_eq hy.symm)
    · rcases List.mem_cons.mp hy with hy | hy
      · calc (z :: zs).foldl min x = zs.foldl min (min x z) := rfl
          _ ≤ min x z := foldl_min_le_init zs (min x z)
          _ ≤ z := min_le_right x z
          _ = y := hy.symm
      · exact ih (min x z) (List.mem_cons_of_mem (min x z) hy)

theorem foldl_min_mem : ∀ (xs : List Int) (x : Int), xs.foldl min x ∈ x :: xs := by
  intro xs
  induction xs with
  | nil => intro x; exact List.mem_singleton_self x
  | cons z zs ih =>
    intro x
    have h := ih (min x z)
    rcases List.mem_cons.mp h with h | h
    · rcases min_choice x z with hm | hm
      · exact List.mem_cons.mpr (Or.inl (h.trans hm))
      · exact List.mem_cons_of_mem x (List.mem_cons.mpr (Or.inl (h.trans hm)))
    · exact List.mem_cons_of_mem x (List.mem_cons_of_mem z h)

theorem minInstructions_le (rows : List LBRow) (c l : String) (q : LBRow)
    (hq : q ∈ rows) (hc : q.challenge_id = c) (hl : q.language = l) :
    minInstructions rows c l ≤ q.instructions := by
  have hmem : q.instructions ∈ (rows.filter
      (fun r => r.challenge_id == c && r.language == l)).map
      (fun r => r.instructions) :=
    List.mem_map_of_mem _ (List.mem_filter.mpr ⟨hq, by simp [hc, hl]⟩)
  cases hm : (rows.filter (fun r => r.challenge_id == c && r.language == l)).map
      (fun r => r.instructions) with
  | nil => rw [hm] at hmem; simp at hmem
  | cons x xs =>
    rw [hm] at hmem
    have : minInstructions rows c l = xs.foldl min x := by
      unfold minInstructions
      rw [hm]
    rw [this]
    exact foldl_min_le q.instructions xs x hmem

theorem minInstructions_attained (rows : List LBRow) (c l : String)
    (q0 : LBRow) (hq0 : q0 ∈ rows) (hc0 : q0.challenge_id = c)
    (hl0 : q0.language = l) :
    ∃ q ∈ rows, q.challenge_id = c ∧ q.language = l ∧
      q.instructions = minInstructions rows c l := by
  have hmem : q0.instructions ∈ (rows.filter
      (fun r => r.challenge_id == c && r.language == l)).map
      (fun r => r.instructions) :=
    List.mem_map_of_mem _ (List.mem_filter.mpr ⟨hq0, by simp [hc0, hl0]⟩)
  cases hm : (rows.filter (fun r => r.challenge_id == c && r.language == l)).map
      (fun r => r.instructions) with
  | nil => rw [hm] at hmem; simp at hmem
  | cons x xs =>
    have hval : minInstructions rows c l = xs.foldl min x := by
      unfold minInstructions
      rw [hm]
    have hin : xs.foldl min x ∈ (rows.filter
        (fun r => r.challenge_id == c && r.language == l)).map
        (fun r => r.instructions) := by
      rw [hm]
      exact foldl_min_mem xs x
    rcases List.mem_map.mp hin with ⟨q, hqf, hqi⟩
    rcases List.mem_filter.mp hqf with ⟨hqrows, hqcond⟩
    simp only [Bool.and_eq_true, beq_iff_eq] at hqcond
    exact ⟨q, hqrows, hqcond.1, hqcond.2, by rw [hqi, hval]⟩

/-- C8 amended: rows at the group minimum contribute exactly 1000, other
rows contribute best / instructions × 1000 rounded to the nearest integer
(the bigint cast of the float expression) rather than floored; the group
minimum is a lower bound attained in the group; totals are per-user sums
and the output is their score-descending ordering. -/
theorem c8_global_score (rows : List LBRow) (r : LBRow) (hr : r ∈ rows) :
    (r.instructions ≠ minInstructions rows r.challenge_id r.language →
      contribution rows r =
        roundHalfEven
          (((minInstructions rows r.challenge_id r.language) : ℚ) /
            (r.instructions : ℚ) * 1000)) ∧
    (r.instructions = minInstructions rows r.challenge_id r.language →
      contribution rows r = 1000) ∧
    (∀ q ∈ rows, q.challenge_id = r.challenge_id → q.language = r.language →
      minInstructions rows r.challenge_id r.language ≤ q.instructions) ∧
    (∃ q ∈ rows, q.challenge_id = r.challenge_id ∧ q.language = r.language ∧
      q.instructions = minInstructions rows r.challenge_id r.language) ∧
    List.Sorted (fun a b : Nat × Int => b.2 ≤ a.2)
      (get_global_leaderboard rows) ∧
    List.Perm (get_global_leaderboard rows)
      ((userIds rows).map (fun u => (u, total_score rows u))) := by
  have htot : ∀ a b : Nat × Int,
      scoreDescLe a b = true ∨ scoreDescLe b a = true := by
    intro a b
    unfold scoreDescLe
    rcases le_total b.2 a.2 with h | h
    · exact Or.inl (decide_eq_true h)
    · exact Or.inr (decide_eq_true h)
  have htrans : ∀ a b c : Nat × Int, scoreDescLe a b = true →
      scoreDescLe b c = true → scoreDescLe a c = true := by
    intro a b c h1 h2
    exact decide_eq_true (le_trans (of_decide_eq_true h2) (of_decide_eq_true h1))
  refine ⟨fun hne => ?_, fun heq => ?_, ?_, ?_, ?_, sortLe_perm _ _⟩
  · simp [contribution, hne]
  · simp [contribution, heq]
  · intro q hq hc hl
    exact minInstructions_le rows r.challenge_id r.language q hq hc hl
  · exact minInstructions_attained rows r.challenge_id r.language r hr rfl rfl
  · exact List.Pairwise.imp (fun h => of_decide_eq_true h)
      (sortLe_sorted scoreDescLe htot htrans _)

/-- The two-row board of the C8 counterexample: best is 2, the other row
holds 3 instructions. -/
def c8rows : List LBRow := [⟨1, "c", "x", 2⟩, ⟨2, "c", "x", 3⟩]

/-- C8 counterexample: at best 2 and instructions 3 the bigint cast of the
float expression rounds 2000/3 to 667, while the claimed floor gives 666 —
the claim's floor formula disagrees with the code on this row. -/
theorem c8_counterexample_cast_rounds_not_floors :
    contribution c8rows ⟨2, "c", "x", 3⟩ = 667 ∧
    floorContribution c8rows ⟨2, "c", "x", 3⟩ = 666 ∧
    (667 : Int) ≠ 666 := by
  have hmin : minInstructions c8rows "c" "x" = 2 := by decide
  have harg : (((2 : Int) : ℚ) / ((3 : Int) : ℚ) * 1000) = 2000 / 3 := by
    push_cast
    ring
  have hf : Int.floor ((2000 : ℚ) / 3) = 666 := by norm_num [Int.floor_eq_iff]
  refine ⟨?_, ?_, by decide⟩
  · simp only [contribution, hmin]
    rw [if_neg (by decide), harg]
    simp only [roundHalfEven, hf]
    norm_num
  · simp only [floorContribution, hmin]
    rw [if_neg (by decide), harg, hf]

/-- Witness for C8 amended at the concrete two-row board. -/
theorem c8_global_score_witness :
    ((3 : Int) ≠ minInstructions c8rows "c" "x" →
      contribution c8rows ⟨2, "c", "x", 3⟩ =
        roundHalfEven ((minInstructions c8rows "c" "x" : ℚ) /
          ((3 : Int) : ℚ) * 1000)) ∧
    ((3 : Int) = minInstructions c8rows "c" "x" →
      contribution c8rows ⟨2, "c", "x", 3⟩ = 1000) ∧
    (∀ q ∈ c8rows, q.challenge_id = "c" → q.language = "x" →
      minInstructions c8rows "c" "x" ≤ q.instructions) ∧
    (∃ q ∈ c8rows, q.challenge_id = "c" ∧ q.language = "x" ∧
      q.instructions = minInstructions c8rows "c" "x") ∧
    List.Sorted (fun a b : Nat × Int => b.2 ≤ a.2)
      (get_global_leaderboard c8rows) ∧
    List.Perm (get_global_leaderboard c8rows)
      ((userIds c8rows).map (fun u => (u, total_score c8rows u))) :=
  c8_global_score c8rows ⟨2, "c", "x", 3⟩ (by decide)

end CtfArena
